import Mathlib

/-!
Verification of the live-chat relay server (`server.js` and its variant files).

The development shallowly embeds the in-memory state of the server and the
socket event handlers as pure Lean functions:

* the public message history (`messages` with the `MAX_HISTORY = 8` bound),
* the identity registry (`users`: socket id to profile with block list),
* the `block` / `unblock` / chat fan-out logic,
* the pending-mention queues (`pendingMentions`, cap 100) and the join flush,
* the DM room identifier computation,
* the reaction store (message id to emoji to set of reactor names),
* the mention scanner of the public chat handler.

JavaScript strings are modelled by `String`, but every string operation is
implemented on the underlying character list (`String.data`) so that all
definitions evaluate by `decide`.  JavaScript objects used as dictionaries are
modelled by association lists, JavaScript `Set` by an insertion-ordered
duplicate-free list (matching the specified iteration order of `Set`).
-/

/-! ### Generic string operations (implemented on `String.data`) -/

/-- ASCII lower-casing, as used by `String.prototype.toLowerCase` on the
ASCII names the server compares (`Char.toLower` lower-cases `A`–`Z`). -/
def lowerS (s : String) : String := ⟨s.data.map Char.toLower⟩

/-- Code-unit lexicographic comparison of character lists, the order used by
the default comparator of `Array.prototype.sort` on strings. -/
def charLexLe : List Char → List Char → Bool
  | [], _ => true
  | _ :: _, [] => false
  | a :: as, b :: bs =>
    if a.toNat < b.toNat then true
    else if b.toNat < a.toNat then false
    else charLexLe as bs

/-- The string order used by the JavaScript default sort. -/
def sLe (a b : String) : Prop := charLexLe a.data b.data = true

instance : DecidableRel sLe := fun a b => by unfold sLe; infer_instance

/-! ### Bounded buffers: `slice(-n)` -/

/-- JavaScript `array.slice(-n)`: the last `n` elements (the whole array when
it is shorter than `n`). -/
def sliceLast (n : Nat) (l : List α) : List α := l.drop (l.length - n)

/-! ### Association lists (JavaScript objects used as dictionaries) -/

/-- `obj[k]`, reading a property of a JavaScript object. -/
def alookup {κ α : Type} [DecidableEq κ] : List (κ × α) → κ → Option α
  | [], _ => none
  | p :: rest, k => if p.1 = k then some p.2 else alookup rest k

/-- `obj[k] = v`, writing a property (updates in place, appends if absent). -/
def aset {κ α : Type} [DecidableEq κ] : List (κ × α) → κ → α → List (κ × α)
  | [], k, v => [(k, v)]
  | p :: rest, k, v => if p.1 = k then (k, v) :: rest else p :: aset rest k v

/-- `delete obj[k]`, removing a property. -/
def aerase {κ α : Type} [DecidableEq κ] : List (κ × α) → κ → List (κ × α)
  | [], _ => []
  | p :: rest, k => if p.1 = k then aerase rest k else p :: aerase rest k

/-- `obj[k]` with a default for an absent property (e.g. `obj[k] || []`). -/
def aget {κ α : Type} [DecidableEq κ] (d : α) (l : List (κ × α)) (k : κ) : α :=
  (alookup l k).getD d

/-! ### The public history ring (`server.js` lines 143–145)

```
messages.push(msg);
if (messages.length > MAX_HISTORY) messages = messages.slice(-MAX_HISTORY);
```
with `MAX_HISTORY = 8`. -/
def MAX_HISTORY : Nat := 8

/-- One public `chat message` append to the `messages` buffer. -/
def appendHistory (messages : List α) (msg : α) : List α :=
  let l := messages ++ [msg]
  if l.length > MAX_HISTORY then sliceLast MAX_HISTORY l else l

/-- A whole sequence of public chat-message appends. -/
def appendHistoryAll (messages : List α) (msgs : List α) : List α :=
  msgs.foldl appendHistory messages

/-! ### The identity registry and the block / unblock handlers

`users` maps a socket id to `{ name, role, blocked, status, ... }`
(`server.js` line 12).  Only the fields the block and fan-out logic reads are
modelled. -/
structure UserRec where
  name : String
  role : String
  blocked : List String
  status : String
deriving DecidableEq, Repr

/-- The live registry: socket id to profile. -/
def Users : Type := List (String × UserRec)

instance : DecidableEq Users := by unfold Users; infer_instance

/-- Transport events sent back to clients, as far as the claims observe them. -/
inductive Emit where
  | system (sid txt : String)
  | blockListNote (sid : String) (l : List String)
  | usersBroadcast
  | onlineRoster (sid : String) (names : List String)
deriving DecidableEq, Repr

/-- `if (!u.blocked.includes(n)) u.blocked.push(n)`. -/
def addBlock (u : UserRec) (n : String) : UserRec :=
  if n ∈ u.blocked then u else { u with blocked := u.blocked ++ [n] }

/-- The per-entry state update of the `block` handler (`server.js` lines
212–229): the issuing socket pushes `t` onto its own block list, then every
user named `t` receives the reciprocal entry `issuerName`. -/
def blockUpd (sid issuerName t : String) (k : String) (u : UserRec) : UserRec :=
  let u1 := if k = sid then addBlock u t else u
  if u1.name = t then addBlock u1 issuerName else u1

/-- The `block` handler of `server.js` (lines 212–229): returns the new
registry and the emitted events.  There is no self-block check in this file. -/
def blockRun (st : Users) (sid t : String) : Users × List Emit :=
  match alookup st sid with
  | none => (st, [])
  | some user =>
    if t = "" then (st, [])
    else
      (st.map fun p => (p.1, blockUpd sid user.name t p.1 p.2),
        [Emit.blockListNote sid (blockUpd sid user.name t sid user).blocked,
          Emit.usersBroadcast])

/-- The `block` handler of the `part_001` / `part_002` variant (lines
227–242), which rejects a self-block with a `system` notice. -/
def blockRunV1 (st : Users) (sid t : String) : Users × List Emit :=
  match alookup st sid with
  | none => (st, [])
  | some user =>
    if t = "" then (st, [])
    else if t = user.name then
      (st, [Emit.system sid "❌ You cannot block yourself."])
    else
      (st.map fun p => (p.1, blockUpd sid user.name t p.1 p.2),
        [Emit.blockListNote sid (blockUpd sid user.name t sid user).blocked,
          Emit.usersBroadcast])

/-- State part of the `block` handler. -/
def blockHandler (st : Users) (sid t : String) : Users := (blockRun st sid t).1

/-- The per-entry state update of the `unblock` handler (`server.js` lines
231–244). -/
def unblockUpd (sid issuerName t : String) (k : String) (u : UserRec) : UserRec :=
  let u1 := if k = sid then { u with blocked := u.blocked.filter (· ≠ t) } else u
  if u1.name = t then { u1 with blocked := u1.blocked.filter (· ≠ issuerName) } else u1

/-- The `unblock` handler of `server.js` (lines 231–244). -/
def unblockHandler (st : Users) (sid t : String) : Users :=
  match alookup st sid with
  | none => st
  | some user => st.map fun p => (p.1, unblockUpd sid user.name t p.1 p.2)

/-- The per-recipient delivery test of the public chat fan-out
(`server.js` lines 174–183): an admin sender or recipient always receives;
otherwise the message is skipped when either block list names the other. -/
def delivers (sender recip : UserRec) : Bool :=
  if sender.role = "admin" ∨ recip.role = "admin" then true
  else !(recip.blocked.contains sender.name) && !(sender.blocked.contains recip.name)

/-- Registry-mutating events between a block and a later delivery.  A public
`chat message` never mutates `users` (it only appends to `messages` and
`pendingMentions`), so it is the identity on the registry. -/
inductive BEvent where
  | block (sid t : String)
  | unblock (sid t : String)
  | chat
deriving DecidableEq, Repr

def applyEvent (st : Users) : BEvent → Users
  | .block sid t => blockHandler st sid t
  | .unblock sid t => unblockHandler st sid t
  | .chat => st

def applyEvents (st : Users) (evs : List BEvent) : Users := evs.foldl applyEvent st

/-- An event that removes the pair (`nA`, `nB`) from each other's block
lists: an `unblock` issued by a connection named `nA` against `nB`, or by a
connection named `nB` against `nA`. -/
def unblocksPair (st : Users) (nA nB : String) : BEvent → Prop
  | .unblock sid t =>
      ∃ u, alookup st sid = some u ∧ ((u.name = nA ∧ t = nB) ∨ (u.name = nB ∧ t = nA))
  | _ => False

/-- The (socket id, name, role) skeleton of the registry; block and unblock
touch only the `blocked` field, so this skeleton is invariant. -/
def namesRoles (st : Users) : List (String × String × String) :=
  st.map fun p => (p.1, p.2.name, p.2.role)

/-! ### Pending mentions (`server.js` lines 121–126 and 158–169)

`pendingMentions` maps a lower-cased name to the queue of mention payloads
stored while no live connection matched the name. -/
structure MentionNote where
  fromName : String
  text : String
  ts : Nat
  msgId : String
deriving DecidableEq, Repr

def PendingMap : Type := List (String × List MentionNote)

instance : DecidableEq PendingMap := by unfold PendingMap; infer_instance

/-- Enqueue of one unresolved mention (`server.js` lines 163–169):
```
const lc = raw.toLowerCase();
if (!pendingMentions[lc]) pendingMentions[lc] = [];
pendingMentions[lc].push(mentionPayload);
if (pendingMentions[lc].length > 100) pendingMentions[lc] = pendingMentions[lc].slice(-100);
``` -/
def mentionEnqueue (pm : PendingMap) (raw : String) (m : MentionNote) : PendingMap :=
  let lc := lowerS raw
  let q1 := aget [] pm lc ++ [m]
  aset pm lc (if q1.length > 100 then sliceLast 100 q1 else q1)

def mentionEnqueueAll (pm : PendingMap) (ms : List (String × MentionNote)) : PendingMap :=
  ms.foldl (fun acc p => mentionEnqueue acc p.1 p.2) pm

/-- The pending-mention flush of the `join` handler (`server.js` lines
121–126): the delivered payloads and the remaining map.
```
const unameLc = (users[socket.id].name || "").toLowerCase();
if (pendingMentions[unameLc] && pendingMentions[unameLc].length) {
  pendingMentions[unameLc].forEach(m => safeEmit(socket.id, "mention", m));
  delete pendingMentions[unameLc];
}
``` -/
def joinFlush (pm : PendingMap) (joinedName : String) : List MentionNote × PendingMap :=
  let lc := lowerS joinedName
  match alookup pm lc with
  | some q => if q.length ≠ 0 then (q, aerase pm lc) else ([], pm)
  | none => ([], pm)

/-! ### DM room identifiers (`server.js` lines 256–274)

`const room = ["dm", fromName, target.name].sort().join("_");` -/

/-- `Array.prototype.sort` with the default (code-unit lexicographic)
comparator. -/
def sortedJs (l : List String) : List String := List.insertionSort sLe l

/-- The room identifier computed by the `dm-response` accept branch. -/
def roomId (fromName targetName : String) : String :=
  String.intercalate "_" (sortedJs ["dm", fromName, targetName])

/-- Modelled from the spec (§4.5): `roomID = "dm_" + sortedJoin(fromName,
byIdentity.displayName)` — the two participant names sorted and joined,
prefixed by `"dm_"`.  Stated for comparison with `roomId` above. -/
def roomIdSpec (a b : String) : String :=
  "dm_" ++ String.intercalate "_" (sortedJs [a, b])

/-! ### The reaction store (`server.js` lines 307–330)

`reactions` maps a message id to an emoji map, each emoji holding a `Set` of
user names.  A JavaScript `Set` is modelled by its insertion-ordered,
duplicate-free element list (`add` appends when absent, `delete` removes). -/

/-- The toggle on one emoji set:
```
if (emojiSet.has(user.name)) { emojiSet.delete(user.name); }
else { emojiSet.add(user.name); }
``` -/
def toggleName (s : List String) (n : String) : List String :=
  if n ∈ s then s.erase n else s ++ [n]

def ReactStore : Type := List (String × List (String × List String))

instance : DecidableEq ReactStore := by unfold ReactStore; infer_instance

/-- `reactions[msgId][emoji]` viewed as a list of names (empty if absent). -/
def getReact (store : ReactStore) (msgId emoji : String) : List String :=
  aget [] (aget [] store msgId) emoji

/-- The `reaction` handler state change (`server.js` lines 307–330):
`ensureReactionSlot`, read-or-create the emoji set, toggle, store back. -/
def toggleReaction (store : ReactStore) (msgId emoji reactor : String) : ReactStore :=
  let inner := aget [] store msgId
  aset store msgId (aset inner emoji (toggleName (aget [] inner emoji) reactor))

def applyToggles (store : ReactStore) (ops : List (String × String × String)) : ReactStore :=
  ops.foldl (fun s op => toggleReaction s op.1 op.2.1 op.2.2) store

/-- Every emoji set of the store is duplicate-free (true of every reachable
store, because JavaScript `Set` membership is unique). -/
def ReactNodup (store : ReactStore) : Prop :=
  ∀ msgId emoji, (getReact store msgId emoji).Nodup

/-! ### Mention scanning of the public chat handler

`server.js` lines 148–172 and the `part_001` variant lines 156–187. -/
inductive MAction where
  | invite (name : String)
  | mention (name : String)
deriving DecidableEq, Repr

/-- `tok.slice(1).replace(/[^A-Za-z0-9_\-\.]/g, "")`. -/
def stripName (s : String) : String :=
  ⟨s.data.filter fun c => c.isAlphanum || c == '_' || c == '-' || c == '.'⟩

/-- `tok.slice(1)`. -/
def strDrop1 (s : String) : String := ⟨s.data.drop 1⟩

/-- `tok.startsWith("@")`. -/
def startsWithAt (s : String) : Bool :=
  match s.data with
  | '@' :: _ => true
  | _ => false

/-- One token of the `server.js` mention scan; `next` is the following token
(`""` when absent).  Produces a DM invite when followed by `dm`, otherwise a
person mention — with no special case for `online`. -/
def scanTok (tok next : String) : List MAction :=
  if startsWithAt tok ∧ 1 < tok.length then
    let raw := stripName (strDrop1 tok)
    if raw = "" then []
    else if lowerS next = "dm" then [MAction.invite raw]
    else [MAction.mention raw]
  else []

/-- The whole-token scan of `server.js` (lines 148–172). -/
def scanChat : List String → List MAction
  | [] => []
  | tok :: rest => scanTok tok (rest.headD "") ++ scanChat rest

/-- One token of the `part_001` / `part_002` variant scan (lines 166–187),
which skips the reserved token `online` (case-insensitively). -/
def scanTokV1 (tok next : String) : List MAction :=
  if startsWithAt tok ∧ 1 < tok.length then
    let raw := stripName (strDrop1 tok)
    if raw = "" then []
    else if lowerS next = "dm" then [MAction.invite raw]
    else if lowerS raw = "online" then []
    else [MAction.mention raw]
  else []

def scanChatV1 : List String → List MAction
  | [] => []
  | tok :: rest => scanTokV1 tok (rest.headD "") ++ scanChatV1 rest

/-- A word character in the sense of the regular-expression classes
`\w` / `\b` / `\B`. -/
def isWordChar (c : Char) : Bool := c.isAlphanum || c == '_'

/-- Whether `/\B@online\b/i` matches at the head of the character list:
an `@`, then `online` case-insensitively, then a non-word character or the
end of the text. -/
def matchOnlineAt : List Char → Bool
  | '@' :: c1 :: c2 :: c3 :: c4 :: c5 :: c6 :: rest =>
      ([c1, c2, c3, c4, c5, c6].map Char.toLower == "online".data) &&
        (match rest with
          | [] => true
          | c :: _ => !isWordChar c)
  | _ => false

/-- Scans the text for a `/\B@online\b/i` match; `prev` is the character
before the current position (`none` at the start).  `\B` before the
non-word `@` holds exactly when the previous character is absent or
non-word. -/
def hasAtOnlineAux : Option Char → List Char → Bool
  | _, [] => false
  | prev, c :: rest =>
      (c == '@' &&
        (match prev with
          | some p => !isWordChar p
          | none => true) &&
        matchOnlineAt (c :: rest)) ||
      hasAtOnlineAux (some c) rest

/-- `/\B@online\b/i.test(text)` of the `part_001` variant (line 157). -/
def hasAtOnline (text : String) : Bool := hasAtOnlineAux none text.data

/-- `Object.values(users).filter(u => u.status === "online").map(u => u.name)`. -/
def onlineNames (st : Users) : List String :=
  (st.filter fun p => p.2.status == "online").map fun p => p.2.name

/-- The `@online` roster branch of the `part_001` chat handler (lines
156–160): a private `online-list` reply to the sender when the text
matches. -/
def onlineReply (st : Users) (sid : String) (text : String) : List Emit :=
  if hasAtOnline text then [Emit.onlineRoster sid (onlineNames st)] else []

/-! ### Chat text sanitation (`server.js` lines 140–143) -/

/-- `String.prototype.trim` (whitespace stripped from both ends). -/
def jsTrim (l : List Char) : List Char :=
  ((l.dropWhile Char.isWhitespace).reverse.dropWhile Char.isWhitespace).reverse

/-- `s.slice(0, n)`. -/
def sliceTo (n : Nat) (s : String) : String := ⟨s.data.take n⟩

/-- The text guard and sanitation of the chat handler:
```
const text = (typeof payload === "string") ? payload : (payload.text || "");
if (!text || !String(text).trim()) return;
const msg = createMsgObj(user, String(text).slice(0, 10000));
```
Returns the text stored in the message object, or `none` when the handler
returns early. -/
def chatText (payload : String) : Option String :=
  if payload.data = [] ∨ jsTrim payload.data = [] then none
  else some (sliceTo 10000 payload)

theorem charLexLe_total (a b : List Char) : charLexLe a b = true ∨ charLexLe b a = true := by
  induction a generalizing b with
  | nil => left; rfl
  | cons x xs ih =>
    cases b with
    | nil => right; rfl
    | cons y ys =>
      by_cases h₁ : x.toNat < y.toNat
      · left; simp [charLexLe, h₁]
      · by_cases h₂ : y.toNat < x.toNat
        · right; simp [charLexLe, h₂]
        · rcases ih ys with h | h
          · left; simpa [charLexLe, h₁, h₂] using h
          · right; simpa [charLexLe, h₁, h₂] using h

theorem charLexLe_antisymm (a b : List Char) (hab : charLexLe a b = true)
    (hba : charLexLe b a = true) : a = b := by
  induction a generalizing b with
  | nil =>
    cases b with
    | nil => rfl
    | cons y ys => simp [charLexLe] at hba
  | cons x xs ih =>
    cases b with
    | nil => simp [charLexLe] at hab
    | cons y ys =>
      by_cases h₁ : x.toNat < y.toNat
      · have h₁' : ¬ y.toNat < x.toNat := by omega
        simp [charLexLe, h₁, h₁'] at hba
      · by_cases h₂ : y.toNat < x.toNat
        · simp [charLexLe, h₁, h₂] at hab
        · have hx : x = y := Char.eq_of_val_eq (UInt32.toNat.inj
            (Nat.le_antisymm (Nat.not_lt.mp h₂) (Nat.not_lt.mp h₁)))
          simp only [charLexLe, h₁, h₂, if_false] at hab hba
          rw [hx, ih ys hab hba]

theorem charLexLe_trans (a b c : List Char) (hab : charLexLe a b = true)
    (hbc : charLexLe b c = true) : charLexLe a c = true := by
  induction a generalizing b c with
  | nil => rfl
  | cons x xs ih =>
    cases b with
    | nil => simp [charLexLe] at hab
    | cons y ys =>
      cases c with
      | nil => simp [charLexLe] at hbc
      | cons z zs =>
        have hab' : x.toNat < y.toNat ∨ (x.toNat = y.toNat ∧ charLexLe xs ys = true) := by
          by_cases h1 : x.toNat < y.toNat
          · exact Or.inl h1
          · by_cases h1' : y.toNat < x.toNat
            · simp [charLexLe, h1, h1'] at hab
            · exact Or.inr ⟨by omega, by simpa [charLexLe, h1, h1'] using hab⟩
        have hbc' : y.toNat < z.toNat ∨ (y.toNat = z.toNat ∧ charLexLe ys zs = true) := by
          by_cases h2 : y.toNat < z.toNat
          · exact Or.inl h2
          · by_cases h2' : z.toNat < y.toNat
            · simp [charLexLe, h2, h2'] at hbc
            · exact Or.inr ⟨by omega, by simpa [charLexLe, h2, h2'] using hbc⟩
        rcases hab' with h1 | ⟨h1, hab2⟩ <;> rcases hbc' with h2 | ⟨h2, hbc2⟩
        · have hxz : x.toNat < z.toNat := by omega
          simp [charLexLe, hxz]
        · have hxz : x.toNat < z.toNat := by omega
          simp [charLexLe, hxz]
        · have hxz : x.toNat < z.toNat := by omega
          simp [charLexLe, hxz]
        · have hxz : ¬ x.toNat < z.toNat := by omega
          have hzx : ¬ z.toNat < x.toNat := by omega
          simp [charLexLe, hxz, hzx, ih ys zs hab2 hbc2]

instance : IsTotal String sLe := ⟨fun a b => charLexLe_total a.data b.data⟩

instance : IsTrans String sLe := ⟨fun a b c => charLexLe_trans a.data b.data c.data⟩

instance : IsAntisymm String sLe :=
  ⟨fun a b hab hba => by
    cases a; cases b
    exact congrArg String.mk (charLexLe_antisymm _ _ hab hba)⟩

theorem sliceLast_of_le {n : Nat} {l : List α} (h : l.length ≤ n) : sliceLast n l = l := by
  simp [sliceLast, Nat.sub_eq_zero_of_le h]

theorem length_sliceLast (n : Nat) (l : List α) : (sliceLast n l).length ≤ n := by
  simp only [sliceLast, List.length_drop]
  omega

theorem sliceLast_suffix (n : Nat) (l : List α) : (sliceLast n l).IsSuffix l :=
  List.drop_suffix _ l

theorem sliceLast_sliceLast_append (n : Nat) (x y : List α) :
    sliceLast n (sliceLast n x ++ y) = sliceLast n (x ++ y) := by
  unfold sliceLast
  rw [← List.drop_append_of_le_length (show x.length - n ≤ x.length by omega),
    List.length_drop, List.drop_drop, List.length_append]
  congr 1
  omega

theorem alookup_aset {κ α : Type} [DecidableEq κ] (l : List (κ × α)) (k : κ) (v : α) :
    alookup (aset l k v) k = some v := by
  induction l with
  | nil => simp [aset, alookup]
  | cons p rest ih =>
    by_cases h : p.1 = k
    · simp [aset, alookup, h]
    · simp [aset, alookup, h, ih]

theorem alookup_aset_ne {κ α : Type} [DecidableEq κ] (l : List (κ × α)) (k k' : κ) (v : α)
    (h : k ≠ k') : alookup (aset l k v) k' = alookup l k' := by
  induction l with
  | nil => simp [aset, alookup, h]
  | cons p rest ih =>
    by_cases hp : p.1 = k
    · simp [aset, alookup, hp, h]
    · by_cases hp' : p.1 = k'
      · simp [aset, alookup, hp, hp', Ne.symm h]
      · simp [aset, alookup, hp, hp', ih]

theorem alookup_aerase {κ α : Type} [DecidableEq κ] (l : List (κ × α)) (k : κ) :
    alookup (aerase l k) k = none := by
  induction l with
  | nil => rfl
  | cons p rest ih =>
    by_cases h : p.1 = k
    · simp [aerase, h, ih]
    · simp [aerase, alookup, h, ih]

theorem aget_aset {κ α : Type} [DecidableEq κ] (d : α) (l : List (κ × α)) (k : κ) (v : α) :
    aget d (aset l k v) k = v := by
  simp [aget, alookup_aset]

theorem aget_aset_ne {κ α : Type} [DecidableEq κ] (d : α) (l : List (κ × α)) (k k' : κ) (v : α)
    (h : k ≠ k') : aget d (aset l k v) k' = aget d l k' := by
  simp [aget, alookup_aset_ne _ _ _ _ h]

theorem alookup_map_value {κ α : Type} [DecidableEq κ] (l : List (κ × α))
    (g : κ → α → α) (k : κ) :
    alookup (l.map fun p => (p.1, g p.1 p.2)) k = (alookup l k).map (g k) := by
  induction l with
  | nil => rfl
  | cons p rest ih =>
    by_cases h : p.1 = k
    · subst h; simp [alookup]
    · simp [alookup, h, ih]

theorem appendHistory_eq_sliceLast (messages : List α) (msg : α) :
    appendHistory messages msg = sliceLast MAX_HISTORY (messages ++ [msg]) := by
  by_cases h : (messages ++ [msg]).length > MAX_HISTORY
  · simp only [appendHistory, if_pos h]
  · simp only [appendHistory, if_neg h]
    exact (sliceLast_of_le (Nat.not_lt.mp h)).symm

theorem appendHistoryAll_eq_sliceLast (messages msgs : List α)
    (h : messages.length ≤ MAX_HISTORY) :
    appendHistoryAll messages msgs = sliceLast MAX_HISTORY (messages ++ msgs) := by
  induction msgs generalizing messages with
  | nil => simp [appendHistoryAll, sliceLast_of_le h]
  | cons m rest ih =>
    have step : appendHistoryAll messages (m :: rest) =
        appendHistoryAll (appendHistory messages m) rest := rfl
    rw [step, ih _ (by rw [appendHistory_eq_sliceLast]; exact length_sliceLast _ _),
      appendHistory_eq_sliceLast, sliceLast_sliceLast_append]
    simp

theorem addBlock_name (u : UserRec) (n : String) : (addBlock u n).name = u.name := by
  unfold addBlock; split <;> rfl

theorem addBlock_role (u : UserRec) (n : String) : (addBlock u n).role = u.role := by
  unfold addBlock; split <;> rfl

theorem mem_addBlock (u : UserRec) (n x : String) (h : x ∈ u.blocked) :
    x ∈ (addBlock u n).blocked := by
  unfold addBlock; split
  · exact h
  · exact List.mem_append_left _ h

theorem mem_addBlock_self (u : UserRec) (n : String) : n ∈ (addBlock u n).blocked := by
  unfold addBlock; split
  · assumption
  · exact List.mem_append_right _ (List.mem_singleton.mpr rfl)

theorem blockUpd_name (sid inm t k : String) (u : UserRec) :
    (blockUpd sid inm t k u).name = u.name := by
  simp only [blockUpd]
  split <;> split <;> simp [addBlock_name]

theorem blockUpd_role (sid inm t k : String) (u : UserRec) :
    (blockUpd sid inm t k u).role = u.role := by
  simp only [blockUpd]
  split <;> split <;> simp [addBlock_role]

theorem mem_blocked_blockUpd (sid inm t k : String) (u : UserRec) (x : String)
    (h : x ∈ u.blocked) : x ∈ (blockUpd sid inm t k u).blocked := by
  simp only [blockUpd]
  split <;> split <;>
    first
      | exact h
      | exact mem_addBlock _ _ _ h
      | exact mem_addBlock _ _ _ (mem_addBlock _ _ _ h)

theorem mem_t_blockUpd_self (sid inm t : String) (user : UserRec) :
    t ∈ (blockUpd sid inm t sid user).blocked := by
  simp only [blockUpd, eq_self_iff_true, if_true]
  by_cases h : (addBlock user t).name = t
  · rw [if_pos h]; exact mem_addBlock _ _ _ (mem_addBlock_self _ _)
  · rw [if_neg h]; exact mem_addBlock_self _ _

theorem unblockUpd_name (sid inm t k : String) (u : UserRec) :
    (unblockUpd sid inm t k u).name = u.name := by
  simp only [unblockUpd]
  split <;> split <;> rfl

theorem unblockUpd_role (sid inm t k : String) (u : UserRec) :
    (unblockUpd sid inm t k u).role = u.role := by
  simp only [unblockUpd]
  split <;> split <;> rfl

theorem namesRoles_map_upd (st : Users) (g : String → UserRec → UserRec)
    (hg : ∀ k u, (g k u).name = u.name ∧ (g k u).role = u.role) :
    namesRoles (st.map fun p => (p.1, g p.1 p.2)) = namesRoles st := by
  induction st with
  | nil => rfl
  | cons p rest ih =>
    simp only [namesRoles, List.map_cons, List.map_map] at ih ⊢
    rw [(hg p.1 p.2).1, (hg p.1 p.2).2]
    exact congrArg _ ih

theorem namesRoles_blockHandler (st : Users) (sid t : String) :
    namesRoles (blockHandler st sid t) = namesRoles st := by
  unfold blockHandler blockRun
  cases h : alookup st sid with
  | none => rfl
  | some user =>
    by_cases ht : t = ""
    · simp [ht]
    · simp only [ht, if_neg, ite_false]
      exact namesRoles_map_upd st _ fun k u => ⟨blockUpd_name _ _ _ _ _, blockUpd_role _ _ _ _ _⟩

theorem namesRoles_unblockHandler (st : Users) (sid t : String) :
    namesRoles (unblockHandler st sid t) = namesRoles st := by
  unfold unblockHandler
  cases h : alookup st sid with
  | none => rfl
  | some user =>
    exact namesRoles_map_upd st _ fun k u => ⟨unblockUpd_name _ _ _ _ _, unblockUpd_role _ _ _ _ _⟩

theorem alookup_nr_eq (st st' : Users) (h : namesRoles st = namesRoles st') (sid : String) :
    (alookup st sid).map (fun u => (u.name, u.role)) =
      (alookup st' sid).map (fun u => (u.name, u.role)) := by
  induction st generalizing st' with
  | nil =>
    cases st' with
    | nil => rfl
    | cons q rest' => simp [namesRoles] at h
  | cons p rest ih =>
    cases st' with
    | nil => simp [namesRoles] at h
    | cons q rest' =>
      simp only [namesRoles, List.map_cons, List.cons.injEq] at h
      have hk : p.1 = q.1 := (Prod.ext_iff.mp h.1).1
      have hnr : (p.2.name, p.2.role) = (q.2.name, q.2.role) := (Prod.ext_iff.mp h.1).2
      by_cases hs : p.1 = sid
      · have hs' : q.1 = sid := hk ▸ hs
        simp [alookup, hs, hs', hnr]
      · have hs' : ¬ q.1 = sid := hk ▸ hs
        simp only [alookup, hs, hs', if_false]
        exact ih rest' h.2

theorem nr_lookup_transfer (st st' : Users) (h : namesRoles st = namesRoles st') (sid : String)
    (u : UserRec) (hu : alookup st sid = some u) :
    ∃ u', alookup st' sid = some u' ∧ u.name = u'.name ∧ u.role = u'.role := by
  have hmap := alookup_nr_eq st st' h sid
  rw [hu] at hmap
  cases h' : alookup st' sid with
  | none => rw [h'] at hmap; simp at hmap
  | some u' =>
    rw [h'] at hmap
    simp only [Option.map_some'] at hmap
    have := Option.some.inj hmap
    exact ⟨u', rfl, (Prod.ext_iff.mp this).1, (Prod.ext_iff.mp this).2⟩

theorem blockHandler_lookup (st : Users) (sid t : String) (user : UserRec)
    (h : alookup st sid = some user) (ht : t ≠ "") :
    alookup (blockHandler st sid t) sid = some (blockUpd sid user.name t sid user) := by
  unfold blockHandler blockRun
  rw [h]
  simp only [ht, ite_false, if_neg]
  have hm := alookup_map_value st (fun k u => blockUpd sid user.name t k u) sid
  simp only at hm
  rw [hm, h]
  rfl

theorem blockHandler_none (st : Users) (sid t : String) (h : alookup st sid = none) :
    blockHandler st sid t = st := by
  unfold blockHandler blockRun
  rw [h]

theorem blockHandler_empty (st : Users) (sid t : String) (user : UserRec)
    (h : alookup st sid = some user) (ht : t = "") : blockHandler st sid t = st := by
  unfold blockHandler blockRun
  rw [h]
  simp [ht]

theorem blockHandler_lookup_map (st : Users) (sid t : String) (user : UserRec)
    (h : alookup st sid = some user) (ht : t ≠ "") (sid' : String) :
    alookup (blockHandler st sid t) sid' =
      (alookup st sid').map (blockUpd sid user.name t sid') := by
  unfold blockHandler blockRun
  rw [h]
  simp only [ht, ite_false, if_neg]
  have hm := alookup_map_value st (fun k u => blockUpd sid user.name t k u) sid'
  simpa using hm

theorem unblockHandler_none (st : Users) (sid t : String) (h : alookup st sid = none) :
    unblockHandler st sid t = st := by
  unfold unblockHandler
  rw [h]

theorem unblockHandler_lookup_map (st : Users) (sid t : String) (user : UserRec)
    (h : alookup st sid = some user) (sid' : String) :
    alookup (unblockHandler st sid t) sid' =
      (alookup st sid').map (unblockUpd sid user.name t sid') := by
  unfold unblockHandler
  rw [h]
  have hm := alookup_map_value st (fun k u => unblockUpd sid user.name t k u) sid'
  simpa using hm

theorem mem_unblockUpd_keep (sid t : String) (iu u₀ : UserRec) (sidA nA nB : String)
    (hmem : nB ∈ u₀.blocked) (hname : u₀.name = nA) (hne : nA ≠ nB)
    (hiu : ¬ ((iu.name = nA ∧ t = nB) ∨ (iu.name = nB ∧ t = nA)))
    (hiueq : sidA = sid → iu = u₀) :
    nB ∈ (unblockUpd sid iu.name t sidA u₀).blocked := by
  push_neg at hiu
  obtain ⟨hiu1, hiu2⟩ := hiu
  simp only [unblockUpd]
  by_cases hks : sidA = sid
  · have hIU : iu = u₀ := hiueq hks
    have htnB : t ≠ nB := hiu1 (by rw [hIU, hname])
    have hmem1 : nB ∈ u₀.blocked.filter (· ≠ t) :=
      List.mem_filter.mpr ⟨hmem, decide_eq_true (Ne.symm htnB)⟩
    rw [if_pos hks]
    by_cases hnt : u₀.name = t
    · rw [if_pos hnt]
      exact List.mem_filter.mpr ⟨hmem1, decide_eq_true (by rw [hIU, hname]; exact Ne.symm hne)⟩
    · rw [if_neg hnt]
      exact hmem1
  · rw [if_neg hks]
    by_cases hnt : u₀.name = t
    · rw [if_pos hnt]
      have hiun : iu.name ≠ nB := by
        intro hB
        exact (hiu2 hB) (by rw [← hnt, hname])
      exact List.mem_filter.mpr ⟨hmem, decide_eq_true (Ne.symm hiun)⟩
    · rw [if_neg hnt]
      exact hmem

theorem c2_carry (st₀ : Users) (sidA nA nB : String)
    (hA0 : ∀ u, alookup st₀ sidA = some u → u.name = nA) (hne : nA ≠ nB) :
    ∀ (evs : List BEvent) (st : Users), namesRoles st = namesRoles st₀ →
      (∀ e ∈ evs, ¬ unblocksPair st₀ nA nB e) →
      (∀ u, alookup st sidA = some u → nB ∈ u.blocked) →
      namesRoles (applyEvents st evs) = namesRoles st₀ ∧
        ∀ u, alookup (applyEvents st evs) sidA = some u → nB ∈ u.blocked := by
  intro evs
  induction evs with
  | nil => intro st h1 _ h3; exact ⟨h1, h3⟩
  | cons e rest ih =>
    intro st h1 hex h3
    have hstep : namesRoles (applyEvent st e) = namesRoles st₀ ∧
        ∀ u, alookup (applyEvent st e) sidA = some u → nB ∈ u.blocked := by
      cases e with
      | chat => exact ⟨h1, h3⟩
      | block sid t =>
        refine ⟨by rw [show applyEvent st (BEvent.block sid t) = blockHandler st sid t from rfl,
          namesRoles_blockHandler]; exact h1, ?_⟩
        intro u hu
        rw [show applyEvent st (BEvent.block sid t) = blockHandler st sid t from rfl] at hu
        cases hl : alookup st sid with
        | none => rw [blockHandler_none st sid t hl] at hu; exact h3 u hu
        | some iu =>
          by_cases ht : t = ""
          · rw [blockHandler_empty st sid t iu hl ht] at hu; exact h3 u hu
          · rw [blockHandler_lookup_map st sid t iu hl ht sidA] at hu
            obtain ⟨u₀, hu₀, rfl⟩ := Option.map_eq_some'.mp hu
            exact mem_blocked_blockUpd _ _ _ _ _ _ (h3 u₀ hu₀)
      | unblock sid t =>
        refine ⟨by rw [show applyEvent st (BEvent.unblock sid t) = unblockHandler st sid t from rfl,
          namesRoles_unblockHandler]; exact h1, ?_⟩
        intro u hu
        rw [show applyEvent st (BEvent.unblock sid t) = unblockHandler st sid t from rfl] at hu
        cases hl : alookup st sid with
        | none => rw [unblockHandler_none st sid t hl] at hu; exact h3 u hu
        | some iu =>
          rw [unblockHandler_lookup_map st sid t iu hl sidA] at hu
          obtain ⟨u₀, hu₀, rfl⟩ := Option.map_eq_some'.mp hu
          have hu₀nB : nB ∈ u₀.blocked := h3 u₀ hu₀
          have hu₀nA : u₀.name = nA := by
            obtain ⟨a₀, ha₀, hnm, _⟩ := nr_lookup_transfer st st₀ h1 sidA u₀ hu₀
            rw [hnm]
            exact hA0 a₀ ha₀
          have hexe := hex (BEvent.unblock sid t) (List.mem_cons_self _ _)
          have hiu : ¬ ((iu.name = nA ∧ t = nB) ∨ (iu.name = nB ∧ t = nA)) := by
            intro hcontra
            obtain ⟨i₀, hi₀, hnm, _⟩ := nr_lookup_transfer st st₀ h1 sid iu hl
            exact hexe ⟨i₀, hi₀, by rw [← hnm]; exact hcontra⟩
          refine mem_unblockUpd_keep sid t iu u₀ sidA nA nB hu₀nB hu₀nA hne hiu ?_
          intro hks
          rw [hks] at hu₀
          rw [hl] at hu₀
          exact Option.some.inj hu₀
    exact ih _ hstep.1 (fun e' he' => hex e' (List.mem_cons_of_mem _ he')) hstep.2

theorem cap_eq_sliceLast (n : Nat) (l : List α) :
    (if l.length > n then sliceLast n l else l) = sliceLast n l := by
  split
  · rfl
  · next h => exact (sliceLast_of_le (Nat.not_lt.mp h)).symm

theorem mem_sliceLast_last (n : Nat) (hn : 0 < n) (l : List α) (m : α) :
    m ∈ sliceLast n (l ++ [m]) := by
  unfold sliceLast
  rw [List.drop_append_of_le_length (by simp [List.length_append]; omega)]
  exact List.mem_append_right _ (List.mem_singleton.mpr rfl)

theorem mentionEnqueue_eq_aset (pm : PendingMap) (raw : String) (m : MentionNote) :
    mentionEnqueue pm raw m =
      aset pm (lowerS raw) (sliceLast 100 (aget [] pm (lowerS raw) ++ [m])) := by
  simp only [mentionEnqueue]
  rw [cap_eq_sliceLast]

theorem aget_mentionEnqueue (pm : PendingMap) (raw : String) (m : MentionNote) :
    aget [] (mentionEnqueue pm raw m) (lowerS raw) =
      sliceLast 100 (aget [] pm (lowerS raw) ++ [m]) := by
  rw [mentionEnqueue_eq_aset, aget_aset]

theorem aget_mentionEnqueue_ne (pm : PendingMap) (raw : String) (m : MentionNote) (k : String)
    (h : lowerS raw ≠ k) : aget [] (mentionEnqueue pm raw m) k = aget [] pm k := by
  rw [mentionEnqueue_eq_aset, aget_aset_ne _ _ _ _ _ h]

theorem pending_cap_aux (pm : PendingMap) (ms : List (String × MentionNote)) (k : String)
    (h : (aget [] pm k).length ≤ 100) :
    aget [] (mentionEnqueueAll pm ms) k =
      sliceLast 100 (aget [] pm k ++ (ms.filter fun p => lowerS p.1 = k).map (·.2)) := by
  induction ms generalizing pm with
  | nil => simp [mentionEnqueueAll, sliceLast_of_le h]
  | cons p rest ih =>
    have hstep : mentionEnqueueAll pm (p :: rest) =
        mentionEnqueueAll (mentionEnqueue pm p.1 p.2) rest := rfl
    by_cases hk : lowerS p.1 = k
    · rw [hstep, ih _ (by rw [← hk, aget_mentionEnqueue]; exact length_sliceLast _ _)]
      rw [← hk, aget_mentionEnqueue, sliceLast_sliceLast_append, List.append_assoc]
      have hfilter : ((p :: rest).filter fun q => lowerS q.1 = k) =
          p :: (rest.filter fun q => lowerS q.1 = k) := by
        simp [List.filter, hk]
      rw [hk, hfilter]
      simp
    · rw [hstep, ih _ (by rw [aget_mentionEnqueue_ne _ _ _ _ hk]; exact h)]
      rw [aget_mentionEnqueue_ne _ _ _ _ hk]
      have hfilter : ((p :: rest).filter fun q => lowerS q.1 = k) =
          rest.filter fun q => lowerS q.1 = k := by
        simp [List.filter, hk]
      rw [hfilter]

theorem getReact_toggleReaction_eq (store : ReactStore) (mid e n : String) :
    getReact (toggleReaction store mid e n) mid e = toggleName (getReact store mid e) n := by
  unfold getReact toggleReaction
  rw [aget_aset, aget_aset]

theorem getReact_toggleReaction_ne (store : ReactStore) (mid e n mid' e' : String)
    (h : mid' ≠ mid ∨ e' ≠ e) :
    getReact (toggleReaction store mid e n) mid' e' = getReact store mid' e' := by
  unfold getReact toggleReaction
  by_cases hm : mid = mid'
  · subst hm
    rcases h with h | h
    · exact absurd rfl h
    · rw [aget_aset, aget_aset_ne _ _ _ _ _ (Ne.symm h)]
  · rw [aget_aset_ne _ _ _ _ _ hm]

theorem toggleName_nodup (s : List String) (n : String) (h : s.Nodup) :
    (toggleName s n).Nodup := by
  unfold toggleName
  split
  · exact h.erase _
  · next hn =>
    simp [List.nodup_append, h, hn]

theorem toggleName_twice_perm (s : List String) (n : String) (h : s.Nodup) :
    List.Perm (toggleName (toggleName s n) n) s := by
  unfold toggleName
  by_cases hm : n ∈ s
  · rw [if_pos hm, if_neg (h.not_mem_erase)]
    exact List.perm_append_comm.trans (List.perm_cons_erase hm).symm
  · rw [if_neg hm, if_pos (List.mem_append_right _ (List.mem_singleton.mpr rfl)),
      List.erase_append_right _ hm, List.erase_cons_head]
    simp

theorem toggleName_eq_of_not_mem (s : List String) (n : String) (hm : n ∉ s) :
    toggleName (toggleName s n) n = s := by
  unfold toggleName
  rw [if_neg hm, if_pos (List.mem_append_right _ (List.mem_singleton.mpr rfl)),
    List.erase_append_right _ hm, List.erase_cons_head]
  simp

theorem reactNodup_toggleReaction (store : ReactStore) (mid e n : String)
    (h : ReactNodup store) : ReactNodup (toggleReaction store mid e n) := by
  intro mid' e'
  by_cases hme : mid' = mid ∧ e' = e
  · obtain ⟨rfl, rfl⟩ := hme
    rw [getReact_toggleReaction_eq]
    exact toggleName_nodup _ _ (h _ _)
  · rw [getReact_toggleReaction_ne store mid e n mid' e' (by tauto)]
    exact h _ _

theorem reactNodup_applyToggles (store : ReactStore) (ops : List (String × String × String))
    (h : ReactNodup store) : ReactNodup (applyToggles store ops) := by
  induction ops generalizing store with
  | nil => exact h
  | cons op rest ih => exact ih _ (reactNodup_toggleReaction _ _ _ _ h)

theorem scanChatV1_no_online (toks : List String) (nm : String)
    (hm : MAction.mention nm ∈ scanChatV1 toks) : lowerS nm ≠ "online" := by
  induction toks with
  | nil => simp [scanChatV1] at hm
  | cons tok rest ih =>
    simp only [scanChatV1, List.mem_append] at hm
    rcases hm with hm | hm
    · simp only [scanTokV1] at hm
      split_ifs at hm with h1 h2 h3 h4
      · simp at hm
      · simp at hm
      · simp at hm
      · simp only [List.mem_singleton, MAction.mention.injEq] at hm
        rw [hm]
        exact h4
      · simp at hm
    · exact ih hm

/-! ### Claim theorems -/

/-- Claim C1: after any sequence of public chat-message appends starting from
a buffer within the bound, the history holds at most 8 messages, the
surviving entries are a suffix of the full insertion sequence (so eviction
removes the oldest first and insertion order is preserved), and the buffer is
exactly the last 8 entries. -/
theorem claim_c1_history_ring {α : Type} (init msgs : List α) (h : init.length ≤ 8) :
    (appendHistoryAll init msgs).length ≤ 8 ∧
      (appendHistoryAll init msgs).IsSuffix (init ++ msgs) ∧
      appendHistoryAll init msgs = sliceLast 8 (init ++ msgs) := by
  have heq : appendHistoryAll init msgs = sliceLast 8 (init ++ msgs) :=
    appendHistoryAll_eq_sliceLast init msgs h
  rw [heq]
  exact ⟨length_sliceLast _ _, sliceLast_suffix _ _, rfl⟩

theorem claim_c1_witness :
    (appendHistoryAll ([] : List Nat) [0, 1, 2, 3, 4, 5, 6, 7, 8]).length ≤ 8 ∧
      (appendHistoryAll ([] : List Nat) [0, 1, 2, 3, 4, 5, 6, 7, 8]).IsSuffix
        (([] : List Nat) ++ [0, 1, 2, 3, 4, 5, 6, 7, 8]) ∧
      appendHistoryAll ([] : List Nat) [0, 1, 2, 3, 4, 5, 6, 7, 8] =
        sliceLast 8 (([] : List Nat) ++ [0, 1, 2, 3, 4, 5, 6, 7, 8]) :=
  claim_c1_history_ring [] [0, 1, 2, 3, 4, 5, 6, 7, 8] (by decide)

/-- Claim C2: if connection `sidA` (named `A.name`, not admin) blocks the
name `nB` (all of whose connections are non-admin), then after any further
sequence of registry events that contains no `unblock` of the pair in either
direction, the fan-out predicate delivers nothing from `sidA`'s user to any
connection named `nB`, and nothing from such a connection to `sidA`'s
user. -/
theorem claim_c2_block_mutual_silence (st₀ : Users) (sidA sidr nB : String)
    (A uA ur : UserRec) (evs : List BEvent)
    (hA : alookup st₀ sidA = some A)
    (hAadmin : A.role ≠ "admin")
    (hBadmin : ∀ sid u, alookup st₀ sid = some u → u.name = nB → u.role ≠ "admin")
    (hne : A.name ≠ nB)
    (hnB : nB ≠ "")
    (hex : ∀ e ∈ evs, ¬ unblocksPair st₀ A.name nB e)
    (hlookA : alookup (applyEvents (blockHandler st₀ sidA nB) evs) sidA = some uA)
    (hlookr : alookup (applyEvents (blockHandler st₀ sidA nB) evs) sidr = some ur)
    (hurname : ur.name = nB) :
    delivers uA ur = false ∧ delivers ur uA = false := by
  have hA0 : ∀ u, alookup st₀ sidA = some u → u.name = A.name := by
    intro u hu
    rw [hA] at hu
    cases Option.some.inj hu
    rfl
  have hnr1 : namesRoles (blockHandler st₀ sidA nB) = namesRoles st₀ :=
    namesRoles_blockHandler st₀ sidA nB
  have hstart : ∀ u, alookup (blockHandler st₀ sidA nB) sidA = some u → nB ∈ u.blocked := by
    intro u hu
    rw [blockHandler_lookup st₀ sidA nB A hA hnB] at hu
    cases Option.some.inj hu
    exact mem_t_blockUpd_self _ _ _ _
  obtain ⟨hnrF, hmemF⟩ :=
    c2_carry st₀ sidA A.name nB hA0 hne evs (blockHandler st₀ sidA nB) hnr1 hex hstart
  have hmA : nB ∈ uA.blocked := hmemF uA hlookA
  obtain ⟨a₀, ha₀, hnameA, hroleA⟩ := nr_lookup_transfer _ st₀ hnrF sidA uA hlookA
  have huArole : uA.role ≠ "admin" := by
    rw [hA] at ha₀
    cases Option.some.inj ha₀
    rw [hroleA]
    exact hAadmin
  obtain ⟨r₀, hr₀, hnamer, hroler⟩ := nr_lookup_transfer _ st₀ hnrF sidr ur hlookr
  have hurrole : ur.role ≠ "admin" := by
    rw [hroler]
    exact hBadmin sidr r₀ hr₀ (by rw [← hnamer, hurname])
  have hc : uA.blocked.contains ur.name = true := by
    rw [hurname]
    exact List.elem_eq_true_of_mem hmA
  constructor
  · simp only [delivers]
    rw [if_neg (by simp [huArole, hurrole])]
    simp [hc, hurname, hmA]
  · simp only [delivers]
    rw [if_neg (by simp [huArole, hurrole])]
    simp [hc, hurname, hmA]

theorem claim_c2_witness :
    delivers ⟨"alice", "user", ["bob"], "online"⟩ ⟨"bob", "user", ["alice", "dave"], "online"⟩ =
        false ∧
      delivers ⟨"bob", "user", ["alice", "dave"], "online"⟩ ⟨"alice", "user", ["bob"], "online"⟩ =
        false :=
  claim_c2_block_mutual_silence
    [("s1", ⟨"alice", "user", [], "online"⟩), ("s2", ⟨"bob", "user", [], "online"⟩)]
    "s1" "s2" "bob" ⟨"alice", "user", [], "online"⟩ ⟨"alice", "user", ["bob"], "online"⟩
    ⟨"bob", "user", ["alice", "dave"], "online"⟩
    [BEvent.chat, BEvent.block "s2" "dave"]
    (by decide) (by decide)
    (by
      intro sid u hu _
      simp only [alookup] at hu
      split_ifs at hu with h1 h2
      · cases Option.some.inj hu
        decide
      · cases Option.some.inj hu
        decide)
    (by decide) (by decide)
    (by
      intro e he
      rcases List.mem_cons.mp he with rfl | he2
      · simp [unblocksPair]
      · rcases List.mem_cons.mp he2 with rfl | he3
        · simp [unblocksPair]
        · exact absurd he3 (List.not_mem_nil _))
    (by decide) (by decide) (by decide)

/-- Claim C3: the fan-out delivers unconditionally whenever the sender or
the recipient has the admin role, regardless of either block list. -/
theorem claim_c3_admin_immunity (sender recip : UserRec)
    (h : sender.role = "admin" ∨ recip.role = "admin") : delivers sender recip = true := by
  unfold delivers
  rw [if_pos h]

theorem claim_c3_witness :
    delivers ⟨"root", "admin", ["bob"], "online"⟩ ⟨"bob", "user", ["root"], "online"⟩ = true ∧
      delivers ⟨"bob", "user", ["root"], "online"⟩ ⟨"root", "admin", ["bob"], "online"⟩ = true :=
  ⟨claim_c3_admin_immunity ⟨"root", "admin", ["bob"], "online"⟩
      ⟨"bob", "user", ["root"], "online"⟩ (Or.inl rfl),
    claim_c3_admin_immunity ⟨"bob", "user", ["root"], "online"⟩
      ⟨"root", "admin", ["bob"], "online"⟩ (Or.inr rfl)⟩

/-- Claim C4: a mention whose candidate resolves to zero live connections is
queued under the lower-cased name; at the next join whose display name
matches that key case-insensitively, the whole queue is delivered and the
key is empty immediately afterwards. -/
theorem claim_c4_pending_mention_flush (pm : PendingMap) (raw : String) (m : MentionNote)
    (joinName : String) (hmatch : lowerS joinName = lowerS raw) :
    m ∈ aget [] (mentionEnqueue pm raw m) (lowerS raw) ∧
      (joinFlush (mentionEnqueue pm raw m) joinName).1 =
        aget [] (mentionEnqueue pm raw m) (lowerS joinName) ∧
      aget [] (joinFlush (mentionEnqueue pm raw m) joinName).2 (lowerS joinName) = [] := by
  have hq := aget_mentionEnqueue pm raw m
  have hlen : (sliceLast 100 (aget [] pm (lowerS raw) ++ [m])).length ≠ 0 := by
    simp only [sliceLast, List.length_drop, List.length_append, List.length_singleton]
    omega
  have hlook : alookup (mentionEnqueue pm raw m) (lowerS joinName) =
      some (sliceLast 100 (aget [] pm (lowerS raw) ++ [m])) := by
    rw [hmatch, mentionEnqueue_eq_aset, alookup_aset]
  refine ⟨?_, ?_, ?_⟩
  · rw [hq]
    exact mem_sliceLast_last 100 (by omega) _ m
  · simp only [joinFlush, hlook, hlen, ne_eq, not_false_eq_true, if_true, ite_not]
    rw [hmatch, hq]
  · simp only [joinFlush, hlook, hlen, ne_eq, not_false_eq_true, if_true, ite_not]
    simp [aget, mentionEnqueue_eq_aset, hmatch, alookup_aerase]

theorem claim_c4_witness :
    (⟨"ann", "hi @Bob", 7, "m2"⟩ : MentionNote) ∈
        aget [] (mentionEnqueue [("bob", [⟨"carl", "yo @bob", 3, "m1"⟩])] "Bob"
          ⟨"ann", "hi @Bob", 7, "m2"⟩) (lowerS "Bob") ∧
      (joinFlush (mentionEnqueue [("bob", [⟨"carl", "yo @bob", 3, "m1"⟩])] "Bob"
            ⟨"ann", "hi @Bob", 7, "m2"⟩) "BOB").1 =
        aget [] (mentionEnqueue [("bob", [⟨"carl", "yo @bob", 3, "m1"⟩])] "Bob"
          ⟨"ann", "hi @Bob", 7, "m2"⟩) (lowerS "BOB") ∧
      aget [] (joinFlush (mentionEnqueue [("bob", [⟨"carl", "yo @bob", 3, "m1"⟩])] "Bob"
          ⟨"ann", "hi @Bob", 7, "m2"⟩) "BOB").2 (lowerS "BOB") = [] :=
  claim_c4_pending_mention_flush [("bob", [⟨"carl", "yo @bob", 3, "m1"⟩])] "Bob"
    ⟨"ann", "hi @Bob", 7, "m2"⟩ "BOB" (by decide)

/-- Claim C5: for every lower-cased key, after any sequence of mention
enqueues the pending queue holds at most 100 entries and is a suffix of the
initial queue followed by the payloads enqueued for that key (so overflow
drops the oldest first). -/
theorem claim_c5_pending_cap (pm : PendingMap) (ms : List (String × MentionNote)) (k : String)
    (h : (aget [] pm k).length ≤ 100) :
    (aget [] (mentionEnqueueAll pm ms) k).length ≤ 100 ∧
      (aget [] (mentionEnqueueAll pm ms) k).IsSuffix
        (aget [] pm k ++ (ms.filter fun p => lowerS p.1 = k).map (·.2)) := by
  rw [pending_cap_aux pm ms k h]
  exact ⟨length_sliceLast _ _, sliceLast_suffix _ _⟩

theorem claim_c5_witness :
    (aget [] (mentionEnqueueAll []
          [("Bob", ⟨"ann", "a", 1, "m1"⟩), ("bob", ⟨"carl", "b", 2, "m2"⟩),
            ("Ann", ⟨"dee", "c", 3, "m3"⟩)]) "bob").length ≤ 100 ∧
      (aget [] (mentionEnqueueAll []
          [("Bob", ⟨"ann", "a", 1, "m1"⟩), ("bob", ⟨"carl", "b", 2, "m2"⟩),
            ("Ann", ⟨"dee", "c", 3, "m3"⟩)]) "bob").IsSuffix
        (aget [] ([] : PendingMap) "bob" ++
          (([("Bob", ⟨"ann", "a", 1, "m1"⟩), ("bob", ⟨"carl", "b", 2, "m2"⟩),
            ("Ann", ⟨"dee", "c", 3, "m3"⟩)].filter fun p => lowerS p.1 = "bob").map (·.2))) :=
  claim_c5_pending_cap []
    [("Bob", ⟨"ann", "a", 1, "m1"⟩), ("bob", ⟨"carl", "b", 2, "m2"⟩),
      ("Ann", ⟨"dee", "c", 3, "m3"⟩)] "bob" (by decide)

/-- Claim C6 counterexample: for the accepted DM between `Alice` and `Bob`
the computed room identifier is `Alice_Bob_dm` — the literal `"dm"`
participates in the sort, so the identifier is not `"dm_"` followed by the
sorted participant names. -/
theorem claim_c6_counterexample :
    roomId "Alice" "Bob" = "Alice_Bob_dm" ∧
      roomId "Alice" "Bob" ≠ roomIdSpec "Alice" "Bob" := by
  decide

/-- Claim C6 (amended): the room identifier is the underscore-join of the
sorted three-element array `["dm", fromName, targetName]`, and it is the
same whichever of the two participants invited and whichever accepted. -/
theorem claim_c6_room_id_symm (a b : String) : roomId a b = roomId b a := by
  unfold roomId sortedJs
  have hperm : List.Perm (["dm", a, b] : List String) ["dm", b, a] :=
    List.Perm.cons "dm" (List.Perm.swap b a [])
  have h1 : List.insertionSort sLe ["dm", a, b] = List.insertionSort sLe ["dm", b, a] := by
    apply List.eq_of_perm_of_sorted (r := sLe)
    · exact (List.perm_insertionSort sLe _).trans
        (hperm.trans (List.perm_insertionSort sLe _).symm)
    · exact List.sorted_insertionSort sLe _
    · exact List.sorted_insertionSort sLe _
  rw [h1]

/-- Claim C7 counterexample: toggling the same (message, emoji, reactor)
twice does not return the reaction store to its exact prior state when the
reactor was already present — the `Set` delete-then-add moves the name to
the end of the insertion order (observable through the admin detail). -/
theorem claim_c7_counterexample :
    toggleReaction (toggleReaction [("m1", [("like", ["alice", "bob"])])] "m1" "like" "alice")
        "m1" "like" "alice" ≠ [("m1", [("like", ["alice", "bob"])])] := by
  decide

/-- Claim C7 (amended): toggling the same (message, emoji, reactor) twice
returns every reaction set to a permutation of its prior membership (exact
equality when the reactor was not present before), and after any sequence of
toggles a reactor name appears at most once per (message, emoji) pair. -/
theorem claim_c7_toggle (store : ReactStore) (mid e n : String)
    (ops : List (String × String × String)) (mid' e' x : String)
    (h : ReactNodup store) :
    List.Perm (getReact (toggleReaction (toggleReaction store mid e n) mid e n) mid e)
        (getReact store mid e) ∧
      (n ∉ getReact store mid e →
        getReact (toggleReaction (toggleReaction store mid e n) mid e n) mid e =
          getReact store mid e) ∧
      (getReact (applyToggles store ops) mid' e').count x ≤ 1 := by
  refine ⟨?_, ?_, ?_⟩
  · rw [getReact_toggleReaction_eq, getReact_toggleReaction_eq]
    exact toggleName_twice_perm _ _ (h mid e)
  · intro hn
    rw [getReact_toggleReaction_eq, getReact_toggleReaction_eq]
    exact toggleName_eq_of_not_mem _ _ hn
  · exact List.nodup_iff_count_le_one.mp (reactNodup_applyToggles store ops h mid' e') x

theorem claim_c7_witness :
    List.Perm
        (getReact (toggleReaction (toggleReaction ([] : ReactStore) "m1" "like" "alice")
          "m1" "like" "alice") "m1" "like")
        (getReact ([] : ReactStore) "m1" "like") ∧
      ("alice" ∉ getReact ([] : ReactStore) "m1" "like" →
        getReact (toggleReaction (toggleReaction ([] : ReactStore) "m1" "like" "alice")
          "m1" "like" "alice") "m1" "like" = getReact ([] : ReactStore) "m1" "like") ∧
      (getReact (applyToggles ([] : ReactStore)
          [("m1", "like", "alice"), ("m1", "like", "alice"), ("m2", "up", "bob")])
        "m1" "like").count "alice" ≤ 1 :=
  claim_c7_toggle [] "m1" "like" "alice"
    [("m1", "like", "alice"), ("m1", "like", "alice"), ("m2", "up", "bob")] "m1" "like" "alice"
    (fun _ _ => by simp [getReact, aget, alookup])

/-- Claim C8 counterexample: in `server.js` a block request whose target
equals the requester's own display name is not rejected — the requester's
block list gains their own name and the emitted events are the ordinary
blocklist update and presence broadcast, not a rejection notice. -/
theorem claim_c8_counterexample :
    (blockRun [("s1", ⟨"alice", "user", [], "online"⟩)] "s1" "alice").1 ≠
        [("s1", ⟨"alice", "user", [], "online"⟩)] ∧
      (blockRun [("s1", ⟨"alice", "user", [], "online"⟩)] "s1" "alice").2 =
        [Emit.blockListNote "s1" ["alice"], Emit.usersBroadcast] := by
  decide

/-- Claim C8 (amended): the `part_001` / `part_002` variant rejects a
self-block exactly as the claim states — the registry is unchanged and a
single rejection notice goes to the requester only — but the `server.js`
handler has no self-check: the requester's own name is added to their block
list. -/
theorem claim_c8_self_block (st : Users) (sid : String) (u : UserRec)
    (hl : alookup st sid = some u) (hne : u.name ≠ "") :
    blockRunV1 st sid u.name = (st, [Emit.system sid "❌ You cannot block yourself."]) ∧
      ∀ u', alookup (blockRun st sid u.name).1 sid = some u' → u.name ∈ u'.blocked := by
  constructor
  · unfold blockRunV1
    rw [hl]
    simp [hne]
  · intro u' hu'
    have hbh : (blockRun st sid u.name).1 = blockHandler st sid u.name := rfl
    rw [hbh, blockHandler_lookup st sid u.name u hl hne] at hu'
    cases Option.some.inj hu'
    exact mem_t_blockUpd_self _ _ _ _

theorem claim_c8_witness :
    blockRunV1 [("s1", ⟨"alice", "user", [], "online"⟩)] "s1" "alice" =
        ([("s1", ⟨"alice", "user", [], "online"⟩)],
          [Emit.system "s1" "❌ You cannot block yourself."]) ∧
      ∀ u', alookup (blockRun [("s1", ⟨"alice", "user", [], "online"⟩)] "s1" "alice").1 "s1" =
          some u' → "alice" ∈ u'.blocked :=
  claim_c8_self_block [("s1", ⟨"alice", "user", [], "online"⟩)] "s1"
    ⟨"alice", "user", [], "online"⟩ (by decide) (by decide)

/-- Claim C9 counterexample: the `server.js` mention scanner has no special
case for the reserved token — `@online` is parsed as an ordinary person
mention (and `server.js` has no online-roster reply at all). -/
theorem claim_c9_counterexample :
    scanChat ["@online"] = [MAction.mention "online"] := by
  decide

/-- Claim C9 (amended): in the `part_001` / `part_002` variant the claim
holds — the scanner never produces a person mention whose candidate
lower-cases to `online`, and a text matching `/\B@online\b/i` triggers a
private online-roster reply to the sender. -/
theorem claim_c9_online_token (toks : List String) (nm : String) (st : Users)
    (sid text : String)
    (hm : MAction.mention nm ∈ scanChatV1 toks) (ht : hasAtOnline text = true) :
    lowerS nm ≠ "online" ∧
      onlineReply st sid text = [Emit.onlineRoster sid (onlineNames st)] := by
  exact ⟨scanChatV1_no_online toks nm hm, by simp [onlineReply, ht]⟩

theorem claim_c9_witness :
    lowerS "bob" ≠ "online" ∧
      onlineReply [("s1", ⟨"carol", "user", [], "online"⟩)] "s1" "@online" =
        [Emit.onlineRoster "s1" ["carol"]] :=
  claim_c9_online_token ["@bob"] "bob" [("s1", ⟨"carol", "user", [], "online"⟩)] "s1" "@online"
    (by decide) (by decide)

/-- Claim C10: for a chat payload whose trimmed text is non-empty, the
message text stored and fanned out is the first 10000 characters of the
supplied text; longer input is silently truncated at that bound and shorter
input is kept verbatim. -/
theorem claim_c10_truncation (p : String) (h : jsTrim p.data ≠ []) :
    chatText p = some (sliceTo 10000 p) ∧ (sliceTo 10000 p).length ≤ 10000 ∧
      (p.length ≤ 10000 → sliceTo 10000 p = p) := by
  refine ⟨?_, ?_, ?_⟩
  · unfold chatText
    rw [if_neg (fun hor => hor.elim (fun hd => h (by rw [hd]; rfl)) h)]
  · show (p.data.take 10000).length ≤ 10000
    rw [List.length_take]
    exact Nat.min_le_left _ _
  · intro hlen
    unfold sliceTo
    rw [List.take_of_length_le hlen]

theorem claim_c10_witness :
    chatText "hello" = some (sliceTo 10000 "hello") ∧
      (sliceTo 10000 "hello").length ≤ 10000 ∧
      ("hello".length ≤ 10000 → sliceTo 10000 "hello" = "hello") :=
  claim_c10_truncation "hello" (by decide)
